import Mathlib

/-!
Verification of the goRawrSquirrel request-gating layer.

Each section shallowly embeds one part of the Go source:
middleware registry and chain composer (internal/core/middleware.go,
interceptors/chain.go), policy resolver (policy/group.go,
policy/matcher.go), client-address resolution and IP admission
(security/resolver.go, security/ipblock.go), the rate-limit gate
(interceptors/ratelimit.go), authentication, recovery and request
tagging (interceptors package), and the option wiring (options.go,
server.go).
-/

namespace GRS

/-- One registered middleware entry: an optional unary stage, an optional
stream stage, and an execution order (lower runs first).  Mirrors the
`middleware` struct of internal/core/middleware.go; stages are generic
payloads (the Go struct stores interceptor function values). -/
structure Middleware (U S : Type) where
  unary : Option U
  stream : Option S
  order : Int

/-- The comparison handed to `slices.SortStableFunc` inside
`MiddlewareBuilder.Build`: `cmp.Compare(a.Order, c.Order)`, i.e. entries
are ordered by their `Order` field. -/
def mwLe {U S : Type} (a c : Middleware U S) : Bool := decide (a.order ≤ c.order)

/-- The stable sort performed by `MiddlewareBuilder.Build`
(`slices.SortStableFunc` is specified to be stable; `List.mergeSort` is
the stable sort of the Lean library, and stability is proved below). -/
def sortMw {U S : Type} (entries : List (Middleware U S)) : List (Middleware U S) :=
  entries.mergeSort mwLe

/-- Embeds `MiddlewareBuilder.Build`: stable-sort the collected entries by order,
then filter the non-nil unary and stream stages into two independent
lanes. -/
def buildMw {U S : Type} (entries : List (Middleware U S)) : List U × List S :=
  let sorted := sortMw entries
  (sorted.filterMap (fun m => m.unary), sorted.filterMap (fun m => m.stream))

/-- The nested continuation built by the loop inside `ChainUnary`
(interceptors/chain.go): `curr` starts as the final handler and is
wrapped by the interceptors from the last one down to index 1;
`nestIc info handler l` is the `curr` obtained after wrapping every
interceptor of `l` around `handler`.  The identical loop appears in
`ChainStream`, so the definition is kept generic in the two leading
argument types. -/
def nestIc {A B C R : Type} (info : C) (handler : A → B → R) :
    List (A → B → C → (A → B → R) → R) → A → B → R
  | [], a, b => handler a b
  | i :: rest, a, b => i a b info (nestIc info handler rest)

/-- Embeds `ChainUnary` / `ChainStream`: zero interceptors compose to nothing
(the server then installs no interceptor and calls the handler raw), a
single interceptor is returned as-is, and otherwise interceptor 0 is
invoked with the nested continuation over the remaining ones. -/
def chainIc {A B C R : Type} (l : List (A → B → C → (A → B → R) → R)) :
    Option (A → B → C → (A → B → R) → R) :=
  match l with
  | [] => none
  | [i] => some i
  | i :: rest => some (fun a b info handler => i a b info (nestIc info handler rest))

/-- Interceptor type used to observe invocation order: context, request
and info are trivial and the result is the trace of stage identifiers. -/
abbrev TraceIc := Unit → Unit → Unit → (Unit → Unit → List Nat) → List Nat

/-- A stage that records its identifier and forwards to the next handler. -/
def logStage (id : Nat) : TraceIc := fun _ _ _ next => id :: next () ()

/-- Run the composed chain over logging stages (one per identifier in
`ids`) with a handler producing the empty trace, and collect the
invocation order.  An empty chain means the raw handler runs. -/
def runChainTrace (ids : List Nat) : List Nat :=
  match chainIc (ids.map logStage) with
  | none => []
  | some i => i () () () (fun _ _ => [])

theorem nestIc_log (ids : List Nat) :
    nestIc () (fun _ _ => ([] : List Nat)) (ids.map logStage) () () = ids := by
  induction ids with
  | nil => rfl
  | cons i rest ih => simp [nestIc, logStage, ih]

theorem runChainTrace_eq (ids : List Nat) : runChainTrace ids = ids := by
  match ids with
  | [] => rfl
  | [i] => rfl
  | i :: j :: rest =>
    show logStage i () () ()
        (nestIc () (fun _ _ => []) ((j :: rest).map logStage)) = i :: j :: rest
    simp only [logStage]
    rw [nestIc_log]

theorem mwLe_trans {U S : Type} (a b c : Middleware U S) :
    mwLe a b → mwLe b c → mwLe a c := by
  simp only [mwLe, decide_eq_true_eq]
  omega

theorem mwLe_total {U S : Type} (a b : Middleware U S) : (mwLe a b || mwLe b a) = true := by
  simp only [mwLe, Bool.or_eq_true, decide_eq_true_eq]
  omega

theorem sortMw_sorted {U S : Type} (entries : List (Middleware U S)) :
    (sortMw entries).Pairwise (fun a b => a.order ≤ b.order) := by
  have h := List.sorted_mergeSort mwLe_trans mwLe_total entries
  exact h.imp (fun hab => by simpa [mwLe] using hab)

theorem sortMw_stable {U S : Type} (entries : List (Middleware U S)) (p : Int) :
    (sortMw entries).filter (fun m => m.order == p)
      = entries.filter (fun m => m.order == p) := by
  set f : Middleware U S → Bool := fun m => m.order == p with hf
  have hmem : ∀ m ∈ entries.filter f, f m = true := fun m hm => List.of_mem_filter hm
  have hA : (entries.filter f).Pairwise (fun a b => mwLe a b = true) := by
    apply List.pairwise_of_forall_mem_list
    intro a ha b hb
    have h1 := hmem a ha
    have h2 := hmem b hb
    simp only [hf, beq_iff_eq] at h1 h2
    simp [mwLe, h1, h2]
  have hsub : List.Sublist (entries.filter f) (sortMw entries) :=
    List.sublist_mergeSort mwLe_trans mwLe_total hA (List.filter_sublist entries)
  have hff : (entries.filter f).filter f = entries.filter f :=
    List.filter_eq_self.mpr hmem
  have hsub2 : List.Sublist (entries.filter f) ((sortMw entries).filter f) := by
    have h2 := hsub.filter f
    rwa [hff] at h2
  have hperm : List.Perm ((sortMw entries).filter f) (entries.filter f) :=
    (List.mergeSort_perm entries mwLe).filter f
  exact (hsub2.eq_of_length hperm.length_eq.symm).symm

/-- C1: for every multiset of (priority, unary/stream stage) registrations
and every order in which they reach `Add`, `Build` followed by chaining
invokes the stages in ascending priority order, equal-priority stages run
in registration order (stable sort), and nil stages are filtered from the
unary and stream lanes independently. -/
theorem middleware_build_chain_order (entries : List (Middleware Nat Nat)) :
    runChainTrace (buildMw entries).1 = (sortMw entries).filterMap (fun m => m.unary)
  ∧ runChainTrace (buildMw entries).2 = (sortMw entries).filterMap (fun m => m.stream)
  ∧ (sortMw entries).Pairwise (fun a b => a.order ≤ b.order)
  ∧ ∀ p : Int, (sortMw entries).filter (fun m => m.order == p)
      = entries.filter (fun m => m.order == p) := by
  refine ⟨?_, ?_, sortMw_sorted entries, fun p => sortMw_stable entries p⟩
  · simp [buildMw, runChainTrace_eq]
  · simp [buildMw, runChainTrace_eq]

/-- Rate-limiting policy of a method group (`RateLimitRule` in
policy/group.go): maximum `rate` requests per `window`, the window being a
`time.Duration`, i.e. a count of nanoseconds. -/
structure RateLimitRule where
  rate : Int
  window : Int
deriving DecidableEq

/-- Per-group policy (`Policy` in policy/group.go).  `timeout` is a
`time.Duration` in nanoseconds. -/
structure Policy where
  rateLimit : Option RateLimitRule
  timeout : Int
  authRequired : Bool
deriving DecidableEq

/-- The three matching strategies (`matchKind` constants in
policy/group.go). -/
inductive MatchKind where
  | exact
  | pref
  | regex
deriving DecidableEq

/-- Numeric value of a kind as declared by the Go `iota` constants:
`kindExact = 0` (highest priority), prefix matching `= 1`, `kindRegex = 2`
(lowest priority). -/
def kindVal : MatchKind → Int
  | .exact => 0
  | .pref => 1
  | .regex => 2

/-- One matching rule (`rule` in policy/group.go).  The compiled regular
expression is modelled by its observable behaviour: `re s` is
`FindStringIndex(s)`, i.e. `some (start, stop)` for the leftmost match or
`none`.  `pattern.length` stands for Go's byte length `len(pattern)`;
they agree on the ASCII method names gRPC uses. -/
structure Rule where
  kind : MatchKind
  pattern : String
  re : String → Option (Nat × Nat)

/-- Embeds `rule.match` (policy/matcher.go): exact and prefix rules report the
pattern length on success, regex rules report the length of the matched
span, everything else reports `(false, 0)`. -/
def Rule.matchM (r : Rule) (m : String) : Bool × Nat :=
  match r.kind with
  | .exact => if m == r.pattern then (true, r.pattern.length) else (false, 0)
  | .pref =>
    if r.pattern.toList.isPrefixOf m.toList then (true, r.pattern.length) else (false, 0)
  | .regex =>
    match r.re m with
    | some loc => (true, loc.2 - loc.1)
    | none => (false, 0)

/-- A finished group builder (`GroupBuilder` in policy/group.go): name,
ordered rules, optional policy (`nil` until `.Policy` is called). -/
structure GroupB where
  name : String
  rules : List Rule
  policy : Option Policy

/-- Embeds `Resolver` (policy/group.go): an ordered collection of groups. -/
structure Resolver where
  groups : List GroupB

/-- The mutable locals of `Resolver.Resolve`: `bestKind`, `bestLen`
(both start at `-1`), and the pending return values. -/
structure RState where
  bestKind : Int
  bestLen : Int
  groupName : String
  pol : Option Policy
  ok : Bool

/-- Initial state of the `Resolve` scan. -/
def initRState : RState := ⟨-1, -1, "", none, false⟩

/-- The `better` condition of `Resolver.Resolve`: no best yet, or strictly
higher kind priority (lower kind value), or same kind and strictly longer
match. -/
def betterB (bestKind bestLen k l : Int) : Bool :=
  decide (bestKind < 0) || decide (k < bestKind) ||
    (decide (k = bestKind) && decide (l > bestLen))

/-- One iteration of the inner rule loop of `Resolver.Resolve`: skip
non-matching rules, replace the best candidate when `better` holds. -/
def resolveStepRule (m : String) (g : GroupB) (st : RState) (r : Rule) : RState :=
  let mr := r.matchM m
  if mr.1 then
    if betterB st.bestKind st.bestLen (kindVal r.kind) (mr.2 : Int) then
      ⟨kindVal r.kind, (mr.2 : Int), g.name, g.policy, true⟩
    else st
  else st

/-- Embeds `Resolver.Resolve` (policy/group.go): scan every rule of every group,
keep the best candidate, report `ok = false` when nothing matched. -/
def Resolver.resolve (res : Resolver) (m : String) : Option (String × Option Policy) :=
  let final := res.groups.foldl (fun st g => g.rules.foldl (resolveStepRule m g) st) initRState
  if final.ok then some (final.groupName, final.pol) else none

/-- A match candidate produced by some rule of some group: the group's
name and policy plus the rule's kind value and match length. -/
structure Cand where
  gname : String
  pol : Option Policy
  kindv : Int
  mlen : Int

/-- The candidate contributed by rule `r` of group `g` for method `m`,
if `r` matches. -/
def ruleCand (m : String) (g : GroupB) (r : Rule) : Option Cand :=
  let mr := r.matchM m
  if mr.1 then some ⟨g.name, g.policy, kindVal r.kind, (mr.2 : Int)⟩ else none

/-- All candidates for `m`, in scan order (groups in registration order,
rules in declaration order inside each group). -/
def candidates (res : Resolver) (m : String) : List Cand :=
  res.groups.flatMap (fun g => g.rules.filterMap (ruleCand m g))

/-- Candidate `d` wins against candidate `c` in the priority cascade:
strictly higher kind priority, or same kind and strictly longer match. -/
def beatsP (d c : Cand) : Prop :=
  d.kindv < c.kindv ∨ (d.kindv = c.kindv ∧ d.mlen > c.mlen)

/-- The tie-break key of a candidate: its kind value and match length. -/
def keyOf (c : Cand) : Int × Int := (c.kindv, c.mlen)

/-- The scan state recording candidate `c` as current best. -/
def stateOf (c : Cand) : RState := ⟨c.kindv, c.mlen, c.gname, c.pol, true⟩

/-- The scan step expressed on candidates. -/
def pick (st : RState) (c : Cand) : RState :=
  if betterB st.bestKind st.bestLen c.kindv c.mlen then stateOf c else st

theorem resolveStepRule_eq (m : String) (g : GroupB) (st : RState) (r : Rule) :
    resolveStepRule m g st r =
      match ruleCand m g r with
      | none => st
      | some c => pick st c := by
  simp only [resolveStepRule, ruleCand, pick, stateOf]
  cases h : (r.matchM m).1 <;> simp [h]

theorem foldl_rules_eq (m : String) (g : GroupB) (l : List Rule) (st : RState) :
    l.foldl (resolveStepRule m g) st = (l.filterMap (ruleCand m g)).foldl pick st := by
  induction l generalizing st with
  | nil => rfl
  | cons r rest ih =>
    rw [List.foldl_cons, resolveStepRule_eq]
    cases h : ruleCand m g r with
    | none => simp only [List.filterMap_cons, h, ih]
    | some c => simp only [List.filterMap_cons, h, List.foldl_cons, ih]

theorem foldl_groups_eq (m : String) (gs : List GroupB) (st : RState) :
    gs.foldl (fun st g => g.rules.foldl (resolveStepRule m g) st) st
      = (gs.flatMap (fun g => g.rules.filterMap (ruleCand m g))).foldl pick st := by
  induction gs generalizing st with
  | nil => rfl
  | cons g rest ih =>
    rw [List.foldl_cons, List.flatMap_cons, List.foldl_append, foldl_rules_eq]
    exact ih _

theorem beatsP_trans {a b c : Cand} : beatsP a b → beatsP b c → beatsP a c := by
  simp only [beatsP]
  omega

theorem beatsP_irrefl (a : Cand) : ¬ beatsP a a := by
  simp only [beatsP]
  omega

theorem beatsP_congr {d e c : Cand} (hk : keyOf e = keyOf d) : beatsP d c → beatsP e c := by
  simp only [keyOf, Prod.mk.injEq] at hk
  simp only [beatsP, hk.1, hk.2]
  exact id

theorem betterB_stateOf (c d : Cand) (h : 0 ≤ c.kindv) :
    betterB c.kindv c.mlen d.kindv d.mlen = true ↔ beatsP d c := by
  simp only [betterB, beatsP, Bool.or_eq_true, Bool.and_eq_true, decide_eq_true_eq]
  omega

theorem foldl_pick_char (cs : List Cand) (hk : ∀ c ∈ cs, 0 ≤ c.kindv) :
    (cs = [] ∧ cs.foldl pick initRState = initRState) ∨
    (∃ pre c post, cs = pre ++ c :: post ∧
       cs.foldl pick initRState = stateOf c ∧
       (∀ d ∈ cs, ¬ beatsP d c) ∧
       (∀ d ∈ pre, keyOf d ≠ keyOf c)) := by
  induction cs using List.reverseRecOn with
  | nil => exact Or.inl ⟨rfl, rfl⟩
  | append_singleton cs d ih =>
    have hkcs : ∀ c ∈ cs, 0 ≤ c.kindv := fun c hc => hk c (by simp [hc])
    have hkd : 0 ≤ d.kindv := hk d (by simp)
    rw [List.foldl_append]
    rcases ih hkcs with ⟨hnil, hfold⟩ | ⟨pre, c, post, hdec, hfold, hnb, hpre⟩
    · subst hnil
      refine Or.inr ⟨[], d, [], by simp, ?_, ?_, by simp⟩
      · simp only [List.foldl_nil, hfold]
        show pick initRState d = stateOf d
        simp only [pick, betterB, initRState]
        norm_num
      · intro e he
        simp only [List.nil_append, List.mem_singleton] at he
        subst he
        exact beatsP_irrefl e
    · rw [hfold]
      by_cases hbd : beatsP d c
      · refine Or.inr ⟨cs, d, [], by simp, ?_, ?_, ?_⟩
        · simp only [List.foldl_cons, List.foldl_nil, pick, stateOf]
          rw [if_pos ((betterB_stateOf c d (hk c (by simp [hdec]))).mpr hbd)]
        · intro e he
          rcases List.mem_append.mp he with he | he
          · intro hed
            exact hnb e he (beatsP_trans hed hbd)
          · simp only [List.mem_singleton] at he
            subst he
            exact beatsP_irrefl e
        · intro e he hkey
          exact hnb e he (beatsP_congr hkey hbd)
      · refine Or.inr ⟨pre, c, post ++ [d], by simp [hdec], ?_, ?_, hpre⟩
        · simp only [List.foldl_cons, List.foldl_nil, pick]
          rw [if_neg (fun hcon =>
            hbd ((betterB_stateOf c d (hk c (by simp [hdec]))).mp (by simpa [stateOf] using hcon)))]
        · intro e he
          rcases List.mem_append.mp he with he | he
          · exact hnb e he
          · simp only [List.mem_singleton] at he
            subst he
            exact hbd

theorem candidates_kind_nonneg (res : Resolver) (m : String) :
    ∀ c ∈ candidates res m, 0 ≤ c.kindv := by
  intro c hc
  simp only [candidates, List.mem_flatMap, List.mem_filterMap] at hc
  obtain ⟨g, _, r, _, hrc⟩ := hc
  simp only [ruleCand] at hrc
  by_cases h : (r.matchM m).1
  · rw [if_pos h] at hrc
    cases hrc
    cases r.kind <;> simp [kindVal]
  · rw [if_neg h] at hrc
    cases hrc

/-- C2: `Resolve` reports `found = false` exactly when no rule matches;
otherwise it returns the name and policy of the first candidate (in
group-registration, then rule-declaration order) that no other candidate
beats in the priority cascade — exact beats prefix beats pattern, same
kind decided by strictly longer match, both tied kept from the earlier
registration.  Match length is the pattern length for exact/prefix rules
and the matched-span length for pattern rules. -/
theorem resolver_resolve_priority_cascade (res : Resolver) (m : String) :
    (res.resolve m = none ↔ candidates res m = [])
  ∧ (∀ out, res.resolve m = some out →
      ∃ pre c post, candidates res m = pre ++ c :: post ∧
        out = (c.gname, c.pol) ∧
        (∀ d ∈ candidates res m, ¬ beatsP d c) ∧
        (∀ d ∈ pre, keyOf d ≠ keyOf c))
  ∧ (∀ r : Rule, r.kind ≠ MatchKind.regex → (r.matchM m).1 = true →
      (r.matchM m).2 = r.pattern.length)
  ∧ (∀ r : Rule, ∀ s t : Nat, r.kind = MatchKind.regex → r.re m = some (s, t) →
      (r.matchM m).2 = t - s) := by
  have hchar := foldl_pick_char (candidates res m) (candidates_kind_nonneg res m)
  have hres : res.resolve m =
      (if ((candidates res m).foldl pick initRState).ok then
        some (((candidates res m).foldl pick initRState).groupName,
          ((candidates res m).foldl pick initRState).pol)
      else none) := by
    simp only [Resolver.resolve, foldl_groups_eq, candidates]
  refine ⟨?_, ?_, ?_, ?_⟩
  · rcases hchar with ⟨hnil, hfold⟩ | ⟨pre, c, post, hdec, hfold, _, _⟩
    · rw [hres, hfold]
      simp [initRState, hnil]
    · rw [hres, hfold]
      simp [stateOf, hdec]
  · intro out hout
    rcases hchar with ⟨hnil, hfold⟩ | ⟨pre, c, post, hdec, hfold, hnb, hpre⟩
    · rw [hres, hfold] at hout
      simp [initRState] at hout
    · rw [hres, hfold] at hout
      simp only [stateOf, if_pos] at hout
      exact ⟨pre, c, post, hdec, by cases hout; rfl, hnb, hpre⟩
  · intro r hk hm
    cases hkind : r.kind
    · simp only [Rule.matchM, hkind] at hm ⊢
      by_cases h : (m == r.pattern) = true
      · rw [if_pos h]
      · rw [if_neg h] at hm
        simp at hm
    · simp only [Rule.matchM, hkind] at hm ⊢
      by_cases h : (r.pattern.toList.isPrefixOf m.toList) = true
      · rw [if_pos h]
      · rw [if_neg h] at hm
        simp at hm
    · exact absurd hkind hk
  · intro r s t hkind hre
    simp [Rule.matchM, hkind, hre]

/-- Concrete exact-match rule used by the resolver witness. -/
def ruleExactPing : Rule := ⟨.exact, "/rawr.Ping/Ping", fun _ => none⟩

/-- Concrete catch-all prefix group used by the resolver witness. -/
def gAll : GroupB := ⟨"all", [⟨.pref, "/", fun _ => none⟩], none⟩

/-- Concrete exact-match group used by the resolver witness. -/
def gPing : GroupB := ⟨"ping", [ruleExactPing], some ⟨some ⟨2, 1000000000⟩, 0, false⟩⟩

/-- Concrete resolver used by the resolver witness: catch-all group first,
exact group second. -/
def resEx : Resolver := ⟨[gAll, gPing]⟩

theorem resolver_resolve_priority_cascade_witness :
    ∃ pre c post, candidates resEx "/rawr.Ping/Ping" = pre ++ c :: post ∧
      (("ping" : String), gPing.policy) = (c.gname, c.pol) ∧
      (∀ d ∈ candidates resEx "/rawr.Ping/Ping", ¬ beatsP d c) ∧
      (∀ d ∈ pre, keyOf d ≠ keyOf c) :=
  (resolver_resolve_priority_cascade resEx "/rawr.Ping/Ping").2.1
    ("ping", gPing.policy) (by decide)

/-- An IP address, modelling the stdlib `netip.Addr`: address family plus
the address bits (32 of them for IPv4, 128 for IPv6). -/
structure Addr where
  is4 : Bool
  bits : Nat
deriving DecidableEq

/-- Bit width of an address family. -/
def Addr.width (a : Addr) : Nat := if a.is4 then 32 else 128

/-- An address range, modelling the stdlib `netip.Prefix`: base address
plus the number of leading significant bits. -/
structure Cidr where
  addr : Addr
  len : Nat
deriving DecidableEq

/-- Containment test of the stdlib `netip.Prefix.Contains`: mixed address
families never match, otherwise the leading `len` bits must agree. -/
def cidrContains (p : Cidr) (a : Addr) : Bool :=
  a.is4 == p.addr.is4 &&
    a.bits >>> (a.width - p.len) == p.addr.bits >>> (p.addr.width - p.len)

/-- Incoming request metadata (`metadata.MD`): a map from (lowercased)
header names to value lists, modelled as an association list.
`mdGet md k` is `md.Get(k)`. -/
abbrev MD := List (String × List String)

/-- Embeds `md.Get(key)`: the values stored under `key`, empty when absent. -/
def mdGet (md : MD) (k : String) : List String :=
  (md.lookup k).getD []

/-- Splitting a character list at a separator, modelling
`strings.SplitSeq(v, sep)` for a one-character separator: the empty
string yields one empty piece, and every occurrence of the separator
starts a new piece. -/
def splitOnChar (sep : Char) : List Char → List (List Char)
  | [] => [[]]
  | c :: rest =>
    let r := splitOnChar sep rest
    if c == sep then [] :: r
    else
      match r with
      | [] => [[c]]
      | g :: gs => (c :: g) :: gs

/-- Whitespace trimming, modelling `strings.TrimSpace`. -/
def trimChars (l : List Char) : List Char :=
  ((l.dropWhile (fun c => c.isWhitespace)).reverse.dropWhile (fun c => c.isWhitespace)).reverse

/-- One dotted-quad octet, as accepted by the stdlib IPv4 parser: one to
three digits, no leading zero, value at most 255. -/
def parseOctet (l : List Char) : Option Nat :=
  if l.length = 0 || 3 < l.length then none
  else if 1 < l.length && l.headD ' ' == '0' then none
  else if l.all (fun c => c.isDigit) then
    let n := l.foldl (fun a c => a * 10 + (c.toNat - 48)) 0
    if n ≤ 255 then some n else none
  else none

/-- Model of the stdlib `netip.ParseAddr`, restricted to IPv4 dotted-quad
literals (the repository's admission tests and all inputs relevant to the
claims are IPv4); anything else fails to parse. -/
def parseAddrChars (l : List Char) : Option Addr :=
  match (splitOnChar '.' l).mapM parseOctet with
  | some [a, b, c, d] => some ⟨true, ((a * 256 + b) * 256 + c) * 256 + d⟩
  | _ => none

/-- The innermost loop of `addrFromHeaders` (security/resolver.go): walk
the comma-separated parts of one header value, skip empty pieces, return
the first piece that parses as an address. -/
def addrFromParts : List (List Char) → Option Addr
  | [] => none
  | p :: rest =>
    let trimmed := trimChars p
    if trimmed.isEmpty then addrFromParts rest
    else
      match parseAddrChars trimmed with
      | some ip => some ip
      | none => addrFromParts rest

/-- The middle loop of `addrFromHeaders`: walk every value of one header. -/
def addrFromVals : List String → Option Addr
  | [] => none
  | v :: rest =>
    match addrFromParts (splitOnChar ',' v.toList) with
    | some ip => some ip
    | none => addrFromVals rest

/-- Embeds `addrFromHeaders` (security/resolver.go): walk the header keys in
priority order and return the first valid IP address found. -/
def addrFromHeaders (md : MD) : List String → Option Addr
  | [] => none
  | k :: rest =>
    match addrFromVals (mdGet md k) with
    | some ip => some ip
    | none => addrFromHeaders md rest

/-- Embeds `isTrustedProxy` (security/resolver.go): the address falls within one
of the given trusted ranges. -/
def isTrustedProxy (addr : Addr) (prefixes : List Cidr) : Bool :=
  prefixes.any (fun p => cidrContains p addr)

/-- Embeds `resolveClientAddr` (security/resolver.go).  The context is modelled
by the peer address it yields, `none` when `peer.FromContext` fails, the
peer's `Addr` is nil, or its address does not parse
(`peerAddrFromContext`). -/
def resolveClientAddr (ctx : Option Addr) (md : MD) (trustedProxies : List Cidr)
    (headerPriority : List String) : Option Addr :=
  match ctx with
  | none => none
  | some peerAddr =>
    if isTrustedProxy peerAddr trustedProxies then
      match addrFromHeaders md headerPriority with
      | some a => some a
      | none => some peerAddr
    else some peerAddr

/-- Embeds `matchesAny` (security/ipblock.go). -/
def matchesAny (addr : Addr) (prefixes : List Cidr) : Bool :=
  prefixes.any (fun p => cidrContains p addr)

/-- Embeds `IPBlocker` (security/ipblock.go).  `mode` is the Go `Mode` integer:
`0` is `AllowList`, `1` is `DenyList`. -/
structure IPBlocker where
  mode : Int
  cidrs : List Cidr
  trustedProxies : List Cidr
  headerPriority : List String

/-- Embeds `IPBlocker.Evaluate`: resolve the client address (deny on failure),
then grant by membership in allow-list mode and by non-membership in
deny-list mode; unknown modes deny. -/
def IPBlocker.evaluate (b : IPBlocker) (ctx : Option Addr) (md : MD) : Bool :=
  match resolveClientAddr ctx md b.trustedProxies b.headerPriority with
  | none => false
  | some addr =>
    let matched := matchesAny addr b.cidrs
    if b.mode = 0 then matched
    else if b.mode = 1 then !matched
    else false

/-- C3: when the transport-level peer is not a trusted proxy, the resolved
client address is the peer address itself, for every metadata content —
so two requests from the same untrusted peer differing only in headers
resolve identically. -/
theorem untrusted_peer_headers_ignored (peer : Addr) (tps : List Cidr)
    (hp : List String) (md md2 : MD) (h : isTrustedProxy peer tps = false) :
    resolveClientAddr (some peer) md tps hp = some peer
  ∧ resolveClientAddr (some peer) md tps hp = resolveClientAddr (some peer) md2 tps hp := by
  constructor
  · simp [resolveClientAddr, h]
  · simp [resolveClientAddr, h]

/-- Concrete peer `10.0.0.1` for the security witnesses. -/
def peerC4 : Addr := ⟨true, 167772161⟩

/-- Concrete header address `10.0.0.7` for the security witnesses. -/
def addrC4 : Addr := ⟨true, 167772167⟩

/-- Concrete trusted-proxy set `10.0.0.0/8`. -/
def trustedC4 : List Cidr := [⟨⟨true, 167772160⟩, 8⟩]

/-- Concrete metadata whose forwarding header holds one value with a
non-address first token followed by a valid address. -/
def mdC4 : MD := [("x-real-ip", ["abc, 10.0.0.7"])]

/-- The default header priority list of security/resolver.go. -/
def hpC4 : List String := ["x-real-ip", "x-forwarded-for"]

theorem untrusted_peer_headers_ignored_witness :
    resolveClientAddr (some peerC4) mdC4 [] hpC4 = some peerC4 :=
  (untrusted_peer_headers_ignored peerC4 [] hpC4 mdC4 [] (by decide)).1

/-- Header walk exactly as the claim words it: per header, only the first
value is taken and only the left-most comma-separated token of it is
parsed; the first header whose such token parses wins. -/
def addrFromHeadersClaim (md : MD) : List String → Option Addr
  | [] => none
  | k :: rest =>
    let cand :=
      match mdGet md k with
      | [] => none
      | v :: _ => parseAddrChars (trimChars ((splitOnChar ',' v.toList).headD []))
    match cand with
    | some ip => some ip
    | none => addrFromHeadersClaim md rest

/-- C4 counterexample: behind a trusted proxy, a header value whose
left-most token does not parse but whose second token does.  Under the
claim no header yields an address, so the peer address would be returned;
the code scans all tokens and returns the second one. -/
theorem header_walk_counterexample :
    isTrustedProxy peerC4 trustedC4 = true
  ∧ addrFromHeadersClaim mdC4 hpC4 = none
  ∧ resolveClientAddr (some peerC4) mdC4 trustedC4 hpC4 = some addrC4
  ∧ addrC4 ≠ peerC4 := by decide

theorem addrFromParts_eq (ps : List (List Char)) :
    addrFromParts ps = ps.findSome? (fun p => parseAddrChars (trimChars p)) := by
  induction ps with
  | nil => rfl
  | cons p rest ih =>
    simp only [addrFromParts, List.findSome?]
    by_cases h : (trimChars p).isEmpty = true
    · have hnil : trimChars p = [] := by simpa using h
      rw [if_pos h, hnil]
      show addrFromParts rest = _
      rw [ih]
      rfl
    · rw [if_neg h]
      cases parseAddrChars (trimChars p) with
      | none => exact ih
      | some ip => rfl

theorem addrFromVals_eq (vs : List String) :
    addrFromVals vs = vs.findSome?
      (fun v => (splitOnChar ',' v.toList).findSome?
        (fun t => parseAddrChars (trimChars t))) := by
  induction vs with
  | nil => rfl
  | cons v rest ih =>
    simp only [addrFromVals, List.findSome?, addrFromParts_eq]
    cases (splitOnChar ',' v.toList).findSome? (fun t => parseAddrChars (trimChars t)) with
    | none => exact ih
    | some ip => rfl

theorem addrFromHeaders_eq (md : MD) (hp : List String) :
    addrFromHeaders md hp = hp.findSome?
      (fun k => (mdGet md k).findSome?
        (fun v => (splitOnChar ',' v.toList).findSome?
          (fun t => parseAddrChars (trimChars t)))) := by
  induction hp with
  | nil => rfl
  | cons k rest ih =>
    simp only [addrFromHeaders, List.findSome?, addrFromVals_eq]
    cases (mdGet md k).findSome?
        (fun v => (splitOnChar ',' v.toList).findSome?
          (fun t => parseAddrChars (trimChars t))) with
    | none => exact ih
    | some ip => rfl

/-- C4 amended: behind a trusted proxy, resolution walks the headers in
priority order, within each header every value in order and every
comma-separated token left to right, and returns the first token that
parses as an address after trimming; when no token parses it falls back
to the peer address. -/
theorem trusted_peer_header_walk (peer : Addr) (md : MD) (tps : List Cidr)
    (hp : List String) (h : isTrustedProxy peer tps = true) :
    resolveClientAddr (some peer) md tps hp =
      some ((hp.findSome?
        (fun k => (mdGet md k).findSome?
          (fun v => (splitOnChar ',' v.toList).findSome?
            (fun t => parseAddrChars (trimChars t))))).getD peer) := by
  simp only [resolveClientAddr, h, if_pos, addrFromHeaders_eq]
  cases hp.findSome?
      (fun k => (mdGet md k).findSome?
        (fun v => (splitOnChar ',' v.toList).findSome?
          (fun t => parseAddrChars (trimChars t)))) with
  | none => rfl
  | some a => rfl

theorem trusted_peer_header_walk_witness :
    resolveClientAddr (some peerC4) mdC4 trustedC4 hpC4 =
      some ((hpC4.findSome?
        (fun k => (mdGet mdC4 k).findSome?
          (fun v => (splitOnChar ',' v.toList).findSome?
            (fun t => parseAddrChars (trimChars t))))).getD peerC4) :=
  trusted_peer_header_walk peerC4 mdC4 trustedC4 hpC4 (by decide)

/-- C5: IP admission membership-tests the resolved address — membership
grants in allow-list mode (0) and denies in deny-list mode (1) — and any
request whose client address cannot be resolved, in particular one with
no transport-level peer address, is denied in both modes. -/
theorem ipblock_evaluate_fail_closed (b : IPBlocker) (ctx : Option Addr) (md : MD) :
    (b.mode = 0 → (b.evaluate ctx md = true ↔
      ∃ a, resolveClientAddr ctx md b.trustedProxies b.headerPriority = some a ∧
        matchesAny a b.cidrs = true))
  ∧ (b.mode = 1 → (b.evaluate ctx md = true ↔
      ∃ a, resolveClientAddr ctx md b.trustedProxies b.headerPriority = some a ∧
        matchesAny a b.cidrs = false))
  ∧ (resolveClientAddr ctx md b.trustedProxies b.headerPriority = none →
      b.evaluate ctx md = false)
  ∧ (ctx = none → b.evaluate ctx md = false) := by
  refine ⟨?_, ?_, ?_, ?_⟩
  · intro hm
    simp only [IPBlocker.evaluate, hm]
    cases hr : resolveClientAddr ctx md b.trustedProxies b.headerPriority with
    | none => simp
    | some a => simp
  · intro hm
    have hne : b.mode ≠ 0 := by omega
    simp only [IPBlocker.evaluate, hm, if_neg hne]
    cases hr : resolveClientAddr ctx md b.trustedProxies b.headerPriority with
    | none => simp
    | some a => simp
  · intro hr
    simp [IPBlocker.evaluate, hr]
  · intro hc
    subst hc
    simp [IPBlocker.evaluate, resolveClientAddr]

/-- Concrete allow-list blocker `192.168.0.0/16` for the admission
witness. -/
def blockerEx : IPBlocker := ⟨0, [⟨⟨true, 3232235520⟩, 16⟩], [], hpC4⟩

theorem ipblock_evaluate_fail_closed_witness :
    (blockerEx.evaluate (some peerC4) [] = true ↔
      ∃ a, resolveClientAddr (some peerC4) [] blockerEx.trustedProxies
          blockerEx.headerPriority = some a ∧ matchesAny a blockerEx.cidrs = true)
  ∧ blockerEx.evaluate none [] = false :=
  ⟨(ipblock_evaluate_fail_closed blockerEx (some peerC4) []).1 rfl,
   (ipblock_evaluate_fail_closed blockerEx none []).2.2.2 rfl⟩

/-- Go error values as the interceptors observe them: either a gRPC
status error (recognized by `status.FromError`) with numeric code and
message, or a plain error. -/
inductive GErr where
  | statusE (code : Int) (msg : String)
  | plainE (msg : String)
deriving DecidableEq

/-- Embeds `status.FromError`: it succeeds exactly on status errors. -/
def fromErrorOk : GErr → Bool
  | .statusE _ _ => true
  | .plainE _ => false

/-- Token-bucket limiter configuration (`ratelimit.Limiter`, wrapping
`rate.NewLimiter(rate.Limit(rps), burst)`); the bucket's admission state
is time-dependent and is abstracted by the `allow` oracle where needed. -/
structure Limiter where
  rps : ℚ
  burst : Int
deriving DecidableEq

/-- Embeds `ratelimit.NewLimiter`. -/
def NewLimiter (rps : ℚ) (burst : Int) : Limiter := ⟨rps, burst⟩

/-- Embeds `time.Duration.Seconds()`: a nanosecond count as (rational) seconds. -/
def durationSeconds (w : Int) : ℚ := (w : ℚ) / 1000000000

/-- The singleton `errRateLimited` (grpc code ResourceExhausted = 8). -/
def errRateLimited : GErr := .statusE 8 "rate limit exceeded"

/-- Embeds `rateLimitState` (interceptors/ratelimit.go): the global limiter, the
optional policy resolver, and the lazily-filled per-group limiter map
(modelled as an association list; in Go a mutex guards it). -/
structure RLState where
  global : Limiter
  resolver : Option Resolver
  groups : List (String × Limiter)

/-- Embeds `rateLimitState.groupLimiter`: resolve again for the group name, then
return the cached limiter or create one seeded from the policy's rate
over its window and the rate as burst. -/
def groupLimiter (s : RLState) (m : String) (rl : RateLimitRule) : Limiter × RLState :=
  let name :=
    match s.resolver with
    | some res =>
      match res.resolve m with
      | some (n, _) => n
      | none => ""
    | none => ""
  match s.groups.lookup name with
  | some l => (l, s)
  | none =>
    let l := NewLimiter ((rl.rate : ℚ) / durationSeconds rl.window) rl.rate
    (l, { s with groups := (name, l) :: s.groups })

/-- Embeds `rateLimitState.limiterFor`: the per-group limiter when the resolver
matches the method to a group carrying a rate-limit policy, the global
limiter otherwise (including when no resolver is configured). -/
def limiterFor (s : RLState) (m : String) : Limiter × RLState :=
  match s.resolver with
  | some res =>
    match res.resolve m with
    | some (_, some pol) =>
      match pol.rateLimit with
      | some rl => groupLimiter s m rl
      | none => (s.global, s)
    | some (_, none) => (s.global, s)
    | none => (s.global, s)
  | none => (s.global, s)

/-- Embeds `RateLimitUnary`, its per-request body: pick the applicable limiter,
perform the single admission check (`Allow`, abstracted by the oracle
`allow`), reject with the singleton ResourceExhausted error or forward to
the handler. -/
def rateLimitUnary {Resp : Type} (st : RLState) (allow : Limiter → Bool) (m : String)
    (handler : Unit → Option Resp × Option GErr) : (Option Resp × Option GErr) × RLState :=
  let r := limiterFor st m
  if allow r.1 then (handler (), r.2) else ((none, some errRateLimited), r.2)

/-- C6: with no resolver the global limiter always applies; with a
resolver, a method resolving to a policy that carries a rate-limit rule
uses a dedicated per-group limiter (cached per group name, created on
first use seeded with the policy's rate and burst), every other outcome
falls back to the global limiter; a failed admission check terminates the
request with the ResourceExhausted failure without invoking the handler
(the result is the same for every handler). -/
theorem ratelimit_gate_limiter_selection {Resp : Type} (st : RLState) (m : String)
    (allow : Limiter → Bool) (handler : Unit → Option Resp × Option GErr) :
    (st.resolver = none → limiterFor st m = (st.global, st))
  ∧ (∀ res n pol rl, st.resolver = some res →
      res.resolve m = some (n, some pol) → pol.rateLimit = some rl →
      limiterFor st m =
        match st.groups.lookup n with
        | some l => (l, st)
        | none =>
          (NewLimiter ((rl.rate : ℚ) / durationSeconds rl.window) rl.rate,
           { st with groups :=
              (n, NewLimiter ((rl.rate : ℚ) / durationSeconds rl.window) rl.rate)
                :: st.groups }))
  ∧ (∀ res, st.resolver = some res →
      (res.resolve m = none ∨ (∃ n, res.resolve m = some (n, none)) ∨
       (∃ n pol, res.resolve m = some (n, some pol) ∧ pol.rateLimit = none)) →
      limiterFor st m = (st.global, st))
  ∧ (allow (limiterFor st m).1 = false →
      rateLimitUnary st allow m handler = ((none, some errRateLimited), (limiterFor st m).2))
  ∧ (allow (limiterFor st m).1 = true →
      rateLimitUnary st allow m handler = (handler (), (limiterFor st m).2)) := by
  refine ⟨?_, ?_, ?_, ?_, ?_⟩
  · intro h
    simp [limiterFor, h]
  · intro res n pol rl hres hr hrl
    simp only [limiterFor, hres, hr, hrl, groupLimiter]
  · intro res hres hdis
    rcases hdis with h | ⟨n, h⟩ | ⟨n, pol, h, hrl⟩
    · simp [limiterFor, hres, h]
    · simp [limiterFor, hres, h]
    · simp [limiterFor, hres, h, hrl]
  · intro h
    simp [rateLimitUnary, h]
  · intro h
    simp [rateLimitUnary, h]

theorem ratelimit_gate_limiter_selection_witness :
    limiterFor ⟨NewLimiter 500 100, some resEx, []⟩ "/rawr.Ping/Ping" =
      (NewLimiter ((2 : ℚ) / durationSeconds 1000000000) 2,
       ⟨NewLimiter 500 100, some resEx,
        [("ping", NewLimiter ((2 : ℚ) / durationSeconds 1000000000) 2)]⟩) := by
  have h := (ratelimit_gate_limiter_selection
      ⟨NewLimiter 500 100, some resEx, []⟩ "/rawr.Ping/Ping" (fun _ => true)
      (fun _ => ((none, none) : Option Unit × Option GErr))).2.1 resEx "ping"
      ⟨some ⟨2, 1000000000⟩, 0, false⟩ ⟨2, 1000000000⟩ rfl (by decide) rfl
  simpa using h

/-- Payload of a registered middleware entry, as far as the option-order
claim needs it: the rate-limit gate records the `rateLimitState` it was
built with (`RateLimitUnary(l, c.resolver)` closes over the limiter and
the resolver value read when the option runs); other stages are opaque. -/
inductive MwPayload where
  | rateLimitGate (st : RLState)
  | otherStage (id : Nat)

/-- The `config` accumulated by `NewServer` (options.go, server.go),
restricted to the fields the option-order claim touches: the stored
resolver and the middleware registrations. -/
structure SrvConfig where
  resolver : Option Resolver
  mws : List (Int × MwPayload)

/-- Middleware order constant `orderRateLimit = 25` (options.go). -/
def orderRateLimit : Int := 25

/-- Embeds `WithResolver` (options.go): store the resolver in the config. -/
def withResolver (r : Resolver) (c : SrvConfig) : SrvConfig :=
  { c with resolver := some r }

/-- Embeds `WithRateLimitGlobal` (options.go): create the global limiter and
register the rate-limit gate, reading `c.resolver` at the moment the
option is applied. -/
def withRateLimitGlobal (rps : ℚ) (burst : Int) (c : SrvConfig) : SrvConfig :=
  { c with mws := c.mws ++
      [(orderRateLimit, .rateLimitGate ⟨NewLimiter rps burst, c.resolver, []⟩)] }

/-- Embeds `NewServer` (server.go): start from the zero config and apply the
options in the order given. -/
def newServerConfig (opts : List (SrvConfig → SrvConfig)) : SrvConfig :=
  opts.foldl (fun c o => o c) ⟨none, []⟩

/-- The rate-limit gate states registered in a config. -/
def rlGates (c : SrvConfig) : List RLState :=
  c.mws.filterMap (fun e =>
    match e.2 with
    | .rateLimitGate st => some st
    | .otherStage _ => none)

/-- C10: `WithRateLimitGlobal` reads the resolver when the option is
applied — listed before `WithResolver` the gate holds no resolver and the
global limiter governs every method; listed after, the gate holds the
resolver and per-group rate-limit policies take effect, so the
configuration-call order is observable through this pair of options. -/
theorem ratelimit_option_order_observable (rps : ℚ) (burst : Int) (r : Resolver) :
    rlGates (newServerConfig [withRateLimitGlobal rps burst, withResolver r])
      = [⟨NewLimiter rps burst, none, []⟩]
  ∧ (∀ st ∈ rlGates (newServerConfig [withRateLimitGlobal rps burst, withResolver r]),
      ∀ m, limiterFor st m = (st.global, st))
  ∧ rlGates (newServerConfig [withResolver r, withRateLimitGlobal rps burst])
      = [⟨NewLimiter rps burst, some r, []⟩]
  ∧ (∀ st ∈ rlGates (newServerConfig [withResolver r, withRateLimitGlobal rps burst]),
      ∀ m n pol rl, r.resolve m = some (n, some pol) → pol.rateLimit = some rl →
        (limiterFor st m).1
          = NewLimiter ((rl.rate : ℚ) / durationSeconds rl.window) rl.rate) := by
  refine ⟨rfl, ?_, rfl, ?_⟩
  · intro st hst m
    simp only [rlGates, newServerConfig, withRateLimitGlobal, withResolver] at hst
    simp only [List.foldl_cons, List.foldl_nil] at hst
    simp only [List.filterMap] at hst
    have : st = ⟨NewLimiter rps burst, none, []⟩ := by
      simpa using hst
    subst this
    simp [limiterFor]
  · intro st hst m n pol rl hr hrl
    have : st = ⟨NewLimiter rps burst, some r, []⟩ := by
      simpa [rlGates, newServerConfig, withRateLimitGlobal, withResolver] using hst
    subst this
    simp [limiterFor, hr, hrl, groupLimiter]

theorem ratelimit_option_order_observable_witness :
    (limiterFor ⟨NewLimiter 500 100, some resEx, []⟩ "/rawr.Ping/Ping").1
      = NewLimiter ((2 : ℚ) / durationSeconds 1000000000) 2 :=
  (ratelimit_option_order_observable 500 100 resEx).2.2.2
    ⟨NewLimiter 500 100, some resEx, []⟩
    (by
      rw [(ratelimit_option_order_observable 500 100 resEx).2.2.1]
      exact List.mem_singleton.mpr rfl)
    "/rawr.Ping/Ping" "ping" ⟨some ⟨2, 1000000000⟩, 0, false⟩ ⟨2, 1000000000⟩
    (by decide) rfl

/-- The request context as the gates observe it: the correlation
identifier slot (the `contextx` request-ID value) and the incoming
metadata. -/
structure Ctx where
  reqId : Option String
  md : MD
deriving DecidableEq

/-- Embeds `contextx.WithRequestID`: derive a context carrying the given ID. -/
def withRequestID (ctx : Ctx) (id : String) : Ctx := { ctx with reqId := some id }

/-- Embeds `contextx.RequestIDFromContext`: the stored ID, empty when absent. -/
def requestIDFromContext (ctx : Ctx) : String := ctx.reqId.getD ""

/-- Embeds `ensureRequestID` (interceptors): enrich the context with a freshly
generated identifier (`newRequestID()` is random and is abstracted by the
parameter `fresh`) unless one is already present. -/
def ensureRequestID (ctx : Ctx) (fresh : String) : Ctx :=
  if requestIDFromContext ctx = "" then withRequestID ctx fresh else ctx

/-- The singleton `errUnauthenticated` (grpc code Unauthenticated = 16). -/
def errUnauthenticated : GErr := .statusE 16 "unauthenticated"

/-- Embeds `authError` (interceptors auth): an error that already is a gRPC
status passes through unchanged, anything else becomes the
Unauthenticated singleton. -/
def authError (e : GErr) : GErr := if fromErrorOk e then e else errUnauthenticated

/-- Embeds `AuthUnary`, its per-request body: call the caller-supplied `AuthFunc`
with the context, the full method name and the incoming metadata; on
error reply `(nil, authError(err))`, on success invoke the handler with
the (possibly enriched) context returned by the callback. -/
def authUnary {Req Resp : Type} (fn : Ctx → String → MD → Ctx × Option GErr)
    (ctx : Ctx) (req : Req) (m : String)
    (handler : Ctx → Req → Option Resp × Option GErr) : Option Resp × Option GErr :=
  let r := fn ctx m ctx.md
  match r.2 with
  | some e => (none, some (authError e))
  | none => handler r.1 req

/-- C7: a failing authentication callback yields `(nil, authError(err))`
where a structured status error is forwarded unchanged (its code
preserved) and any other error is normalized to Unauthenticated; a
successful callback forwards to the handler with the callback's
context. -/
theorem auth_error_normalization {Req Resp : Type}
    (fn : Ctx → String → MD → Ctx × Option GErr) (ctx : Ctx) (req : Req) (m : String)
    (handler : Ctx → Req → Option Resp × Option GErr) :
    (∀ c2 e, fn ctx m ctx.md = (c2, some e) →
      authUnary fn ctx req m handler = (none, some (authError e))
      ∧ (fromErrorOk e = true → authError e = e)
      ∧ (fromErrorOk e = false → authError e = errUnauthenticated))
  ∧ (∀ c2, fn ctx m ctx.md = (c2, none) →
      authUnary fn ctx req m handler = handler c2 req) := by
  constructor
  · intro c2 e he
    refine ⟨by simp [authUnary, he], ?_, ?_⟩
    · intro h
      simp [authError, h]
    · intro h
      simp [authError, h]
  · intro c2 he
    simp [authUnary, he]

theorem auth_error_normalization_witness :
    authUnary
        (fun c _ _ => (c, some (GErr.statusE 7 "denied"))) ⟨none, []⟩ () "/m"
        (fun _ _ => ((none, none) : Option Unit × Option GErr))
      = (none, some (authError (GErr.statusE 7 "denied"))) :=
  ((auth_error_normalization (fun c _ _ => (c, some (GErr.statusE 7 "denied")))
      ⟨none, []⟩ () "/m" (fun _ _ => ((none, none) : Option Unit × Option GErr))).1
    ⟨none, []⟩ (GErr.statusE 7 "denied") rfl).1

/-- Outcome of running a Go function that may panic. -/
inductive HOutcome (Resp : Type) where
  | normal (resp : Option Resp) (err : Option GErr)
  | panicked (v : String)

/-- The fixed Internal error produced by recovery (grpc code 13). -/
def errInternal : GErr := .statusE 13 "internal server error"

/-- Embeds `RecoveryUnary`, its per-request body (the variant that also injects a
request ID): ensure a request ID, run the handler under the deferred
`recover`, convert any panic into `(nil, Internal)` and return every
normal outcome unchanged. -/
def recoveryUnary {Req Resp : Type} (handler : Ctx → Req → HOutcome Resp)
    (ctx : Ctx) (req : Req) (fresh : String) : HOutcome Resp :=
  let ctx2 := ensureRequestID ctx fresh
  match handler ctx2 req with
  | .panicked _ => .normal none (some errInternal)
  | .normal resp err => .normal resp err

/-- C8: a panic anywhere downstream makes the recovery gate return a nil
response with the fixed Internal error, never re-propagates the panic,
and discards the panic value — two handlers panicking with different
values produce the identical response. -/
theorem recovery_unary_panic_internal {Req Resp : Type}
    (handler : Ctx → Req → HOutcome Resp) (ctx : Ctx) (req : Req) (fresh v : String)
    (h : handler (ensureRequestID ctx fresh) req = .panicked v) :
    recoveryUnary handler ctx req fresh
      = .normal none (some (GErr.statusE 13 "internal server error"))
  ∧ (∀ (h2 : Ctx → Req → HOutcome Resp) (w : String),
      h2 (ensureRequestID ctx fresh) req = .panicked w →
      recoveryUnary h2 ctx req fresh = recoveryUnary handler ctx req fresh) := by
  constructor
  · simp [recoveryUnary, h, errInternal]
  · intro h2 w hw
    simp [recoveryUnary, h, hw]

theorem recovery_unary_panic_internal_witness :
    recoveryUnary (fun _ _ => (HOutcome.panicked "boom" : HOutcome Unit))
        ⟨none, []⟩ () "id"
      = .normal none (some (GErr.statusE 13 "internal server error")) :=
  (recovery_unary_panic_internal
    (fun (_ : Ctx) (_ : Unit) => (HOutcome.panicked "boom" : HOutcome Unit))
    ⟨none, []⟩ () "id" "boom" rfl).1

/-- A server stream as the gates observe it: it carries the request
context (`ss.Context()`). -/
structure SStream where
  ctx : Ctx

/-- Embeds `RequestIDUnary`, its per-request body: forward to the handler with the
ID-enriched context. -/
def requestIDUnary {Req Resp : Type} (handler : Ctx → Req → Option Resp × Option GErr)
    (ctx : Ctx) (req : Req) (fresh : String) : Option Resp × Option GErr :=
  handler (ensureRequestID ctx fresh) req

/-- Embeds `RequestIDStream` (interceptors): a no-op passthrough — the code
comments that stream interceptors cannot swap the context, so stream and
handler are forwarded unchanged. -/
def requestIDStream {Srv : Type} (handler : Srv → SStream → Option GErr)
    (srv : Srv) (ss : SStream) : Option GErr :=
  handler srv ss

/-- C9 counterexample: a streaming request whose incoming context carries
no correlation identifier reaches the handler unchanged — the probing
handler observes an empty request ID, so the streaming half of the claim
fails. -/
theorem request_id_stream_counterexample :
    requestIDStream
        (fun _ ss => if requestIDFromContext ss.ctx = "" then some errInternal else none)
        () ⟨⟨none, []⟩⟩ = some errInternal
  ∧ requestIDFromContext (SStream.mk ⟨none, []⟩).ctx = "" :=
  ⟨rfl, rfl⟩

/-- C9 amended: for unary requests the tagging gate hands the handler a
context that carries a correlation identifier — preserved unchanged when
already present, freshly injected otherwise — while the streaming gate is
a pure passthrough that leaves the stream's context untouched. -/
theorem request_id_tagging_amended {Req Resp Srv : Type}
    (handler : Ctx → Req → Option Resp × Option GErr) (ctx : Ctx) (req : Req)
    (fresh : String) (hf : fresh ≠ "")
    (shandler : Srv → SStream → Option GErr) (srv : Srv) (ss : SStream) :
    requestIDUnary handler ctx req fresh = handler (ensureRequestID ctx fresh) req
  ∧ requestIDFromContext (ensureRequestID ctx fresh) ≠ ""
  ∧ (requestIDFromContext ctx ≠ "" → ensureRequestID ctx fresh = ctx)
  ∧ requestIDStream shandler srv ss = shandler srv ss := by
  refine ⟨rfl, ?_, ?_, rfl⟩
  · simp only [ensureRequestID]
    by_cases h : requestIDFromContext ctx = ""
    · rw [if_pos h]
      simpa [withRequestID, requestIDFromContext] using hf
    · rwa [if_neg h]
  · intro h
    simp [ensureRequestID, h]

theorem request_id_tagging_amended_witness :
    requestIDFromContext (ensureRequestID ⟨none, []⟩ "abc") ≠ "" :=
  (request_id_tagging_amended
    (fun _ _ => ((none, none) : Option Unit × Option GErr)) ⟨none, []⟩ (() : Unit)
    "abc" (by decide)
    (fun _ _ => none) (() : Unit) ⟨⟨none, []⟩⟩).2.1

end GRS
